import Mathlib

/-!
A verification development for the `th_rs` interactive history-search tool
(`src/main.rs`).  The Rust program is shallowly embedded: Rust `String`s are
modelled as their character sequences (`List Char`, so that comparison and
truncation are by character, matching Rust `char`-level operations), the
`HashMap` frequency index as an association list with distinct keys, and the
event loop of `run_ui` as a function over a finite script of input events
(each frame can also inject a render or read failure, modelling the fallible
terminal I/O).  Terminal side effects are recorded in a trace of abstract
actions (setup / render / restore).
-/

namespace ThRs

/-- Characters of a Rust `String`/`&str` value. -/
abbrev Str := List Char

/-- Converts a `String` literal to its character list (for concrete inputs). -/
def str (s : String) : Str := s.data

/-- Embeds Rust `to_lowercase()`: lowercase every character.
(Lean's `Char.toLower` covers the ASCII range; the claims under study do not
depend on lowercasing beyond ASCII.) -/
def lower (s : Str) : Str := s.map Char.toLower

/-- Boolean test that `p` is a prefix of `l` (used to embed substring search). -/
def isPrefixB : Str → Str → Bool
  | [], _ => true
  | _ :: _, [] => false
  | a :: as, b :: bs => a == b && isPrefixB as bs

/-- Boolean test that `q` occurs as a contiguous substring of `l`:
embeds Rust `str::contains` with a literal pattern. -/
def isInfixB (q : Str) : Str → Bool
  | [] => q.isEmpty
  | b :: bs => isPrefixB q (b :: bs) || isInfixB q bs

/-- Embeds the filter predicate of `run_ui` (src/main.rs line 77):
`cmd.to_lowercase().contains(&query.to_lowercase())`. -/
def matchesQuery (query cmd : Str) : Bool := isInfixB (lower query) (lower cmd)

/-- Embeds `char` comparison (Rust compares scalar values; code-point order
coincides with UTF-8 byte order). -/
def cmpChar (a b : Char) : Ordering := compare a.toNat b.toNat

/-- Embeds Rust `Ord` on strings: lexicographic comparison. -/
def cmpStr : Str → Str → Ordering
  | [], [] => .eq
  | [], _ :: _ => .lt
  | _ :: _, [] => .gt
  | a :: as, b :: bs => (cmpChar a b).then (cmpStr as bs)

/-- A `(command, count)` pair, the element type of the frequency index and of
the suggestion list. -/
abbrev Entry := Str × Nat

/-- Embeds the sort comparator of `run_ui` (src/main.rs line 81):
`b.1.cmp(&a.1).then(a.0.cmp(&b.0))` — count descending, then command text
ascending. -/
def cmpEntry (a b : Entry) : Ordering := (compare b.2 a.2).then (cmpStr a.1 b.1)

/-- `a` sorts at-or-before `b` under the comparator (`cmpEntry a b ≠ gt`). -/
def rankLE (a b : Entry) : Bool := cmpEntry a b != .gt

/-- `a` sorts strictly before `b` under the comparator. -/
def rankLT (a b : Entry) : Bool := cmpEntry a b == .lt

/-- The sort order as a relation, for use with `List.insertionSort`. -/
def entryLE (a b : Entry) : Prop := rankLE a b = true

instance : DecidableRel entryLE :=
  fun a b => inferInstanceAs (Decidable (rankLE a b = true))

/-! ### The search engine -/

/-- Embeds the per-frame suggestion computation of `run_ui`
(src/main.rs lines 75–87): filter the index entries whose lowercased command
contains the lowercased query, sort by the comparator (count descending,
command ascending), and truncate to at most 10 entries after sorting.

Rust's stable `sort_by` is embedded as `List.insertionSort entryLE`: the
comparator is a total, transitive and antisymmetric order on entries
(`entryLE_total`, `entryLE_trans`, `entryLE_antisymm`), so the sorted
permutation of any list is unique and every correct sort — in particular the
stable merge sort Rust uses — produces exactly this output. -/
def rank (index : List Entry) (query : Str) : List Entry :=
  let suggestions :=
    List.insertionSort entryLE (index.filter fun e => matchesQuery query e.1)
  if suggestions.length > 10 then suggestions.take 10 else suggestions

/-! ### The frequency index -/

/-- One step of the frequency fold: embeds
`*freq.entry(cmd.clone()).or_insert(0) += 1` on an association list. -/
def bump (freq : List Entry) (cmd : Str) : List Entry :=
  match freq with
  | [] => [(cmd, 1)]
  | (k, v) :: rest => if k = cmd then (k, v + 1) :: rest else (k, v) :: bump rest cmd

/-- Embeds `build_frequency_map` (src/main.rs lines 43–49): counts the
occurrences of every command, the `HashMap` being modelled as an association
list with distinct keys. -/
def build_frequency_map (commands : List Str) : List Entry :=
  commands.foldl bump []

/-! ### Display truncation -/

/-- Embeds `truncate_to_width` (src/main.rs lines 52–54):
`s.chars().take(width as usize).collect()` — truncation by character count. -/
def truncate_to_width (s : Str) (width : Nat) : Str :=
  s.take width

/-! ### Interaction-loop data model -/

/-- The key codes distinguished by the `match code` in `run_ui`
(src/main.rs lines 117–167); `otherKey` stands for every other
`crossterm::event::KeyCode` (all hit the final `_ => {}` arm). -/
inductive KeyCode where
  | char (c : Char)
  | backspace
  | up
  | down
  | enter
  | esc
  | otherKey
deriving DecidableEq

/-- The events distinguished by the `match event::read()?` in `run_ui`;
`otherEvent` stands for every other `crossterm::event::Event`. -/
inductive Event where
  | key (code : KeyCode)
  | resize (w h : Nat)
  | otherEvent
deriving DecidableEq

/-- The mutable state of the interaction loop: `query` and `selected_index`
(src/main.rs lines 62–63). -/
structure UIState where
  query : Str
  selected_index : Nat
deriving DecidableEq

/-- Embeds the per-iteration clamp (src/main.rs lines 90–92):
`if selected_index >= suggestions.len() { selected_index =
suggestions.len().saturating_sub(1); }` (`Nat` subtraction saturates). -/
def clampIndex (st : UIState) (len : Nat) : UIState :=
  if st.selected_index ≥ len then { st with selected_index := len - 1 } else st

/-- Result of dispatching one input event: continue the loop with a new
state, or leave it through the `Enter` or `Esc` arm. -/
inductive StepOut where
  | cont (st : UIState)
  | exitEnter
  | exitEsc
deriving DecidableEq

/-- Embeds the event dispatch of `run_ui` (src/main.rs lines 116–173), given
the already-clamped state and the length of this frame's suggestion list:
`Char` pushes onto the query and resets the index, `Backspace` pops the last
query character and resets the index, `Up` decrements under a guard `> 0`,
`Down` increments under a guard `+ 1 < len`, `Enter`/`Esc` terminate, and
every other key or event (including resize) leaves the state unchanged. -/
def stepOfEvent (st : UIState) (len : Nat) : Event → StepOut
  | .key code =>
    match code with
    | .char c => .cont ⟨st.query ++ [c], 0⟩
    | .backspace => .cont ⟨st.query.dropLast, 0⟩
    | .up =>
      if st.selected_index > 0 then .cont ⟨st.query, st.selected_index - 1⟩ else .cont st
    | .down =>
      if st.selected_index + 1 < len then .cont ⟨st.query, st.selected_index + 1⟩
      else .cont st
    | .enter => .exitEnter
    | .esc => .exitEsc
    | .otherKey => .cont st
  | .resize _ _ => .cont st
  | .otherEvent => .cont st

/-- The state component of one full loop iteration of `run_ui`: recompute the
suggestions for the current query, clamp the selection index, dispatch the
event.  On `Enter`/`Esc` the loop exits; the state at that moment is
returned unchanged. -/
def stepFrame (freq : List Entry) (st : UIState) (ev : Event) : UIState :=
  let len := (rank freq st.query).length
  let st' := clampIndex st len
  match stepOfEvent st' len ev with
  | .cont st'' => st''
  | _ => st'

/-- The loop state reached from the initial state (empty query, index 0)
after a sequence of input events. -/
def runFrames (freq : List Entry) (evs : List Event) : UIState :=
  evs.foldl (stepFrame freq) ⟨[], 0⟩

/-! ### Terminal-session model

The terminal side effects of `run_ui`/`main` are recorded as a trace of
abstract actions.  `setup` stands for the successful
`enable_raw_mode` + `EnterAlternateScreen` + `Hide` sequence
(src/main.rs lines 66–68) and `restore` for the
`Show` + `LeaveAlternateScreen` + `disable_raw_mode` restoration sequence
(run from the `Enter`/`Esc` arms and from `main`'s error handler); `render`
stands for one successfully drawn frame.  Each frame of the input script can
inject an I/O failure into the frame's drawing (`renderOk = false`, the `?`
on the write calls returns early) or into `event::read()`
(`readEv = none`).  The restoration sequence itself is modelled as
succeeding; the claims under study concern on which paths it is invoked. -/

inductive TermAction where
  | setup
  | render
  | restore
deriving DecidableEq

/-- One iteration's worth of the outside world: whether drawing the frame
succeeds, and what `event::read()` yields (`none` = I/O error). -/
structure Frame where
  renderOk : Bool
  readEv : Option Event
deriving DecidableEq

/-- How the process run ends, as observable outside. -/
inductive Outcome where
  | selected (cmd : Str)
  | noMatch
  | cancelled
deriving DecidableEq

/-- Result of `run_ui`/`main`: a normal return (`Ok`), an `io::Result` error
(`ioError`), a configuration panic from `load_history` (`configPanic`), or
the out-of-bounds indexing panic of `suggestions[selected_index]`
(`indexPanic`). -/
inductive UIResult where
  | ok (o : Outcome)
  | ioError
  | configPanic (msg : Str)
  | indexPanic
deriving DecidableEq

/-- A finished run with its terminal-action trace, or a run that consumed
the whole (finite) event script while the loop was still going. -/
inductive RunResult where
  | finished (r : UIResult) (tr : List TermAction)
  | ranOut (tr : List TermAction)
deriving DecidableEq

/-- Prepends already-performed terminal actions to a run's trace. -/
def RunResult.prepend (a : List TermAction) : RunResult → RunResult
  | .finished r tr => .finished r (a ++ tr)
  | .ranOut tr => .ranOut (a ++ tr)

/-- Embeds the `loop` of `run_ui` (src/main.rs lines 70–174) against a finite
script of frames.  Each iteration recomputes and clamps, draws the frame (a
failure propagates via `?` with no cleanup), reads one event (a failure
propagates via `?` with no cleanup), and dispatches it.  The `Enter` arm
restores the terminal and then reports either the selected command
(`suggestions[selected_index]`, whose out-of-bounds panic is modelled by
`indexPanic`) or "no match"; the `Esc` arm restores the terminal and reports
cancellation. -/
def uiLoop (freq : List Entry) : UIState → List Frame → RunResult
  | _, [] => .ranOut []
  | st, f :: rest =>
    let suggestions := rank freq st.query
    let st' := clampIndex st suggestions.length
    if f.renderOk then
      match f.readEv with
      | none => .finished .ioError [.render]
      | some ev =>
        match stepOfEvent st' suggestions.length ev with
        | .cont st'' => (uiLoop freq st'' rest).prepend [.render]
        | .exitEnter =>
          .finished
            (if suggestions.isEmpty then .ok .noMatch
             else
               match suggestions[st'.selected_index]? with
               | some e => .ok (.selected e.1)
               | none => .indexPanic)
            [.render, .restore]
        | .exitEsc => .finished (.ok .cancelled) [.render, .restore]
    else .finished .ioError []

/-! ### History loading and process entry -/

/-- The process environment and file system as `load_history` sees them:
the `HOME` and `SHELL` variables (`none` = unset) and the readable files
(`none` = `File::open` fails). -/
structure Env where
  home : Option Str
  shell : Option Str
  fileLines : Str → Option (List Str)

/-- Result of `load_history`: the trimmed non-empty history lines, or a
panic (`expect` / explicit `panic!` calls in src/main.rs lines 17–27). -/
inductive LoadResult where
  | ok (commands : List Str)
  | panicked (msg : Str)
deriving DecidableEq

/-- Embeds Rust `str::trim` (drop leading and trailing whitespace). -/
def trimStr (s : Str) : Str :=
  ((s.dropWhile Char.isWhitespace).reverse.dropWhile Char.isWhitespace).reverse

/-- Embeds the `match shell.as_str()` of `load_history`
(src/main.rs lines 19–24): the history-file path for a recognized shell,
`none` for the `panic!("Unsupported shell: ...")` arm. -/
def history_path_for (home shell : Str) : Option Str :=
  if shell = str "/bin/bash" ∨ shell = str "/usr/bin/bash" then
    some (home ++ str "/.bash_history")
  else if shell = str "/bin/zsh" ∨ shell = str "/usr/bin/zsh" then
    some (home ++ str "/.zsh_history")
  else if shell = str "/usr/bin/fish" ∨ shell = str "/bin/fish" then
    some (home ++ str "/.local/share/fish/fish_history")
  else none

/-- Embeds `load_history` (src/main.rs lines 16–40): read `HOME` and `SHELL`
(`expect` panics when missing), resolve the history path (`panic!` on an
unsupported shell), open the file (`panic!` when unreadable), and keep every
trimmed non-empty line.  All failure modes are panics, so the returned
`io::Result` is always `Ok`. -/
def load_history (e : Env) : LoadResult :=
  match e.home with
  | none => .panicked (str "Could not determine HOME directory")
  | some home =>
    match e.shell with
    | none => .panicked (str "Could not determine SHELL")
    | some shell =>
      match history_path_for home shell with
      | none => .panicked (str "Unsupported shell: " ++ shell)
      | some path =>
        match e.fileLines path with
        | none => .panicked (str "Failed to open history file at " ++ path)
        | some lines => .ok ((lines.map trimStr).filter (fun l => !l.isEmpty))

/-- Embeds `run_ui` (src/main.rs lines 57–175): load the history and build
the frequency index (a panic aborts the run before any terminal mutation),
then set up the terminal and enter the loop with an empty query and
selection index 0. -/
def run_ui (e : Env) (frames : List Frame) : RunResult :=
  match load_history e with
  | .panicked msg => .finished (.configPanic msg) []
  | .ok commands =>
    let frequency := build_frequency_map commands
    RunResult.prepend [.setup] (uiLoop frequency ⟨[], 0⟩ frames)

/-- Embeds `main` (src/main.rs lines 177–186): run the UI and, exactly when
it returned an `Err`, run the best-effort terminal restoration.  Panics
unwind past `main`'s handler, so no restoration is attempted for them. -/
def main (e : Env) (frames : List Frame) : RunResult :=
  match run_ui e frames with
  | .finished .ioError tr => .finished .ioError (tr ++ [.restore])
  | r => r

/-- The result reported by the `Enter` arm of `run_ui`
(src/main.rs lines 147–151). -/
def enterResult (freq : List Entry) (st : UIState) : UIResult :=
  if (rank freq st.query).isEmpty then .ok .noMatch
  else
    match (rank freq st.query)[(clampIndex st
        (rank freq st.query).length).selected_index]? with
    | some e => .ok (.selected e.1)
    | none => .indexPanic

/-- The panic message of a `LoadResult` (empty for a successful load). -/
def LoadResult.msgStr : LoadResult → Str
  | .panicked m => m
  | .ok _ => []

/-- Whether `load_history` aborted the process by panicking. -/
def LoadResult.isPanicked : LoadResult → Bool
  | .panicked _ => true
  | .ok _ => false

/-! ### Comparator facts -/

theorem cmpChar_eq_eq {a b : Char} : cmpChar a b = .eq ↔ a = b := by
  unfold cmpChar
  rw [Nat.compare_eq_eq]
  constructor
  · intro h
    have := congrArg Char.ofNat h
    simpa [Char.ofNat_toNat] using this
  · intro h; rw [h]

theorem cmpChar_swap (a b : Char) : cmpChar b a = (cmpChar a b).swap := by
  unfold cmpChar
  rcases Nat.lt_trichotomy a.toNat b.toNat with h | h | h
  · rw [Nat.compare_eq_lt.2 h, Nat.compare_eq_gt.2 h]; rfl
  · rw [Nat.compare_eq_eq.2 h, Nat.compare_eq_eq.2 h.symm]; rfl
  · rw [Nat.compare_eq_gt.2 h, Nat.compare_eq_lt.2 h]; rfl

theorem cmpChar_lt_trans {a b c : Char} (h₁ : cmpChar a b = .lt)
    (h₂ : cmpChar b c = .lt) : cmpChar a c = .lt := by
  unfold cmpChar at *
  exact Nat.compare_eq_lt.2 (Nat.lt_trans (Nat.compare_eq_lt.1 h₁) (Nat.compare_eq_lt.1 h₂))

theorem cmpStr_eq_eq : ∀ {a b : Str}, cmpStr a b = .eq ↔ a = b
  | [], [] => by simp [cmpStr]
  | [], _ :: _ => by simp [cmpStr]
  | _ :: _, [] => by simp [cmpStr]
  | a :: as, b :: bs => by
    simp only [cmpStr]
    constructor
    · intro h
      cases hc : cmpChar a b with
      | lt => rw [hc] at h; simp [Ordering.then] at h
      | gt => rw [hc] at h; simp [Ordering.then] at h
      | eq =>
        rw [hc] at h; simp only [Ordering.then] at h
        rw [cmpChar_eq_eq.1 hc, (cmpStr_eq_eq).1 h]
    · intro h
      injection h with h₁ h₂
      rw [h₁, h₂, cmpChar_eq_eq.2 rfl, (cmpStr_eq_eq (a := bs)).2 rfl]
      rfl

theorem cmpStr_swap : ∀ (a b : Str), cmpStr b a = (cmpStr a b).swap
  | [], [] => rfl
  | [], _ :: _ => rfl
  | _ :: _, [] => rfl
  | a :: as, b :: bs => by
    simp only [cmpStr, Ordering.swap_then]
    rw [cmpChar_swap a b, cmpStr_swap as bs]

theorem cmpStr_lt_trans : ∀ {a b c : Str}, cmpStr a b = .lt → cmpStr b c = .lt →
    cmpStr a c = .lt
  | [], _ :: _, _ :: _, _, _ => rfl
  | [], [], _, _, h₂ => h₂
  | _ :: _, [], _, h₁, _ => by simp [cmpStr] at h₁
  | _ :: _, _ :: _, [], _, h₂ => by simp [cmpStr] at h₂
  | a :: as, b :: bs, c :: cs, h₁, h₂ => by
    simp only [cmpStr] at *
    cases hab : cmpChar a b with
    | gt => rw [hab] at h₁; simp [Ordering.then] at h₁
    | lt =>
      cases hbc : cmpChar b c with
      | gt => rw [hbc] at h₂; simp [Ordering.then] at h₂
      | lt => rw [cmpChar_lt_trans hab hbc]; rfl
      | eq => rw [← cmpChar_eq_eq.1 hbc, hab]; rfl
    | eq =>
      rw [hab] at h₁; simp only [Ordering.then] at h₁
      cases hbc : cmpChar b c with
      | gt => rw [hbc] at h₂; simp [Ordering.then] at h₂
      | lt => rw [cmpChar_eq_eq.1 hab, hbc]; rfl
      | eq =>
        rw [hbc] at h₂; simp only [Ordering.then] at h₂
        rw [cmpChar_eq_eq.1 hab, hbc]
        simp only [Ordering.then]
        exact cmpStr_lt_trans h₁ h₂

theorem cmpStr_le_trans {a b c : Str} (h₁ : cmpStr a b ≠ .gt) (h₂ : cmpStr b c ≠ .gt) :
    cmpStr a c ≠ .gt := by
  rcases hab : cmpStr a b with _ | _ | _
  · rcases hbc : cmpStr b c with _ | _ | _
    · rw [cmpStr_lt_trans hab hbc]; simp
    · rw [← cmpStr_eq_eq.1 hbc, hab]; simp
    · exact absurd hbc h₂
  · rw [cmpStr_eq_eq.1 hab]; exact h₂
  · exact absurd hab h₁

theorem cmpEntry_swap (a b : Entry) : cmpEntry b a = (cmpEntry a b).swap := by
  unfold cmpEntry
  rw [Ordering.swap_then, cmpStr_swap a.1 b.1]
  congr 1
  rcases Nat.lt_trichotomy a.2 b.2 with h | h | h
  · rw [Nat.compare_eq_lt.2 h, Nat.compare_eq_gt.2 h]; rfl
  · rw [Nat.compare_eq_eq.2 h, Nat.compare_eq_eq.2 h.symm]; rfl
  · rw [Nat.compare_eq_gt.2 h, Nat.compare_eq_lt.2 h]; rfl

theorem cmpEntry_eq_eq {a b : Entry} : cmpEntry a b = .eq ↔ a = b := by
  unfold cmpEntry
  constructor
  · intro h
    cases hn : compare b.2 a.2 with
    | lt => rw [hn] at h; simp [Ordering.then] at h
    | gt => rw [hn] at h; simp [Ordering.then] at h
    | eq =>
      rw [hn] at h; simp only [Ordering.then] at h
      exact Prod.ext (cmpStr_eq_eq.1 h) (Nat.compare_eq_eq.1 hn).symm
  · intro h
    rw [h, Nat.compare_eq_eq.2 rfl]
    simpa [Ordering.then] using cmpStr_eq_eq.2 rfl

theorem entryLE_iff {a b : Entry} : entryLE a b ↔ cmpEntry a b ≠ .gt := by
  unfold entryLE rankLE
  cases cmpEntry a b <;> decide

theorem entryLE_iff_lt_or {a b : Entry} :
    entryLE a b ↔ b.2 < a.2 ∨ (b.2 = a.2 ∧ cmpStr a.1 b.1 ≠ .gt) := by
  rw [entryLE_iff]
  unfold cmpEntry
  rcases hba : compare b.2 a.2 with _ | _ | _
  · simp only [Ordering.then]
    exact ⟨fun _ => Or.inl (Nat.compare_eq_lt.1 hba), fun _ => by decide⟩
  · have h := Nat.compare_eq_eq.1 hba
    simp only [Ordering.then]
    constructor
    · intro hs; exact Or.inr ⟨h, hs⟩
    · rintro (hlt | ⟨-, hs⟩)
      · exact absurd h (Nat.ne_of_lt hlt)
      · exact hs
  · have h := Nat.compare_eq_gt.1 hba
    simp only [Ordering.then]
    constructor
    · intro hgt; exact absurd rfl hgt
    · rintro (hlt | ⟨heq, -⟩)
      · exact absurd (Nat.lt_trans h hlt) (Nat.lt_irrefl _)
      · exact absurd heq (Nat.ne_of_gt h)

theorem entryLE_total (a b : Entry) : entryLE a b ∨ entryLE b a := by
  rw [entryLE_iff, entryLE_iff, cmpEntry_swap a b]
  cases cmpEntry a b <;> decide

theorem entryLE_trans {a b c : Entry} (h₁ : entryLE a b) (h₂ : entryLE b c) :
    entryLE a c := by
  rw [entryLE_iff_lt_or] at *
  rcases h₁ with h₁ | ⟨h₁, s₁⟩
  · rcases h₂ with h₂ | ⟨h₂, -⟩
    · exact Or.inl (Nat.lt_trans h₂ h₁)
    · exact Or.inl (h₂ ▸ h₁)
  · rcases h₂ with h₂ | ⟨h₂, s₂⟩
    · exact Or.inl (h₁ ▸ h₂)
    · exact Or.inr ⟨h₂.trans h₁, cmpStr_le_trans s₁ s₂⟩

theorem entryLE_antisymm {a b : Entry} (h₁ : entryLE a b) (h₂ : entryLE b a) :
    a = b := by
  rw [entryLE_iff_lt_or] at h₁ h₂
  rcases h₁ with h₁ | ⟨h₁, s₁⟩
  · rcases h₂ with h₂ | ⟨h₂, -⟩
    · exact absurd (Nat.lt_trans h₁ h₂) (Nat.lt_irrefl _)
    · exact absurd h₂ (Nat.ne_of_gt h₁)
  · rcases h₂ with h₂ | ⟨-, s₂⟩
    · exact absurd h₁ (Nat.ne_of_gt h₂)
    · have hs : cmpStr a.1 b.1 = .eq := by
        rcases h : cmpStr a.1 b.1 with _ | _ | _
        · rw [cmpStr_swap a.1 b.1, h] at s₂; exact absurd rfl s₂
        · rfl
        · exact absurd h s₁
      exact Prod.ext (cmpStr_eq_eq.1 hs) h₁.symm

instance : IsTotal Entry entryLE := ⟨entryLE_total⟩

instance : IsTrans Entry entryLE := ⟨fun _ _ _ => entryLE_trans⟩

instance : IsAntisymm Entry entryLE := ⟨fun _ _ => entryLE_antisymm⟩

theorem rankLT_of_entryLE_ne {a b : Entry} (h₁ : entryLE a b) (h₂ : a ≠ b) :
    rankLT a b = true := by
  rw [entryLE_iff] at h₁
  unfold rankLT
  rcases h : cmpEntry a b with _ | _ | _
  · rfl
  · exact absurd (cmpEntry_eq_eq.1 h) h₂
  · exact absurd h h₁

/-! ### Claim C9: display truncation -/

/-- C9: for every string `s` and viewport width `w`,
`truncate_to_width s w` is the prefix of `s` consisting of its first
`min w (length s)` characters; working on character lists, truncation is by
character count, so a multi-byte glyph is never split. -/
theorem truncate_to_width_spec (s : Str) (width : Nat) :
    truncate_to_width s width <+: s ∧
    (truncate_to_width s width).length = min width s.length := by
  refine ⟨⟨s.drop width, List.take_append_drop width s⟩, ?_⟩
  exact List.length_take width s

/-! ### Claims C3 and C4: the selection index and the transition table -/

theorem clampIndex_lt (st : UIState) (len : Nat) :
    (clampIndex st len).selected_index < max 1 len := by
  unfold clampIndex
  by_cases h : st.selected_index ≥ len
  · rw [if_pos h]; simp only; omega
  · rw [if_neg h]; omega

theorem clampIndex_query (st : UIState) (len : Nat) :
    (clampIndex st len).query = st.query := by
  unfold clampIndex
  split <;> rfl

theorem clampIndex_lt_len (st : UIState) {len : Nat} (h : 0 < len) :
    (clampIndex st len).selected_index < len := by
  have := clampIndex_lt st len
  omega

theorem stepOfEvent_cont_inv (st : UIState) (len : Nat) (ev : Event) (st'' : UIState)
    (hinv : st.selected_index < max 1 len)
    (h : stepOfEvent st len ev = .cont st'') :
    st''.selected_index = 0 ∨
      (st''.query = st.query ∧ st''.selected_index < max 1 len) := by
  obtain ⟨q, i⟩ := st
  have hinv' : i < max 1 len := hinv
  cases ev with
  | resize w hh =>
    simp only [stepOfEvent] at h
    injection h with h'
    subst h'
    right; exact ⟨rfl, hinv⟩
  | otherEvent =>
    simp only [stepOfEvent] at h
    injection h with h'
    subst h'
    right; exact ⟨rfl, hinv⟩
  | key code =>
    cases code with
    | char c =>
      simp only [stepOfEvent] at h
      injection h with h'
      subst h'
      left; rfl
    | backspace =>
      simp only [stepOfEvent] at h
      injection h with h'
      subst h'
      left; rfl
    | up =>
      simp only [stepOfEvent] at h
      split at h <;> (injection h with h'; subst h')
      · right
        refine ⟨rfl, ?_⟩
        show i - 1 < max 1 len
        omega
      · right; exact ⟨rfl, hinv⟩
    | down =>
      simp only [stepOfEvent] at h
      split at h <;> (injection h with h'; subst h')
      case isTrue hc =>
        have hc' : i + 1 < len := hc
        right
        refine ⟨rfl, ?_⟩
        show i + 1 < max 1 len
        omega
      case isFalse => right; exact ⟨rfl, hinv⟩
    | enter => simp [stepOfEvent] at h
    | esc => simp [stepOfEvent] at h
    | otherKey =>
      simp only [stepOfEvent] at h
      injection h with h'
      subst h'
      right; exact ⟨rfl, hinv⟩

theorem stepFrame_inv (freq : List Entry) (st : UIState) (ev : Event) :
    (stepFrame freq st ev).selected_index <
      max 1 (rank freq (stepFrame freq st ev).query).length := by
  have hq := clampIndex_query st (rank freq st.query).length
  have hi := clampIndex_lt st (rank freq st.query).length
  simp only [stepFrame]
  rcases hse : stepOfEvent (clampIndex st (rank freq st.query).length)
      (rank freq st.query).length ev with st'' | _ | _
  · simp only
    rcases stepOfEvent_cont_inv _ _ _ _ (hq ▸ hi) hse with h0 | ⟨hqq, hlt⟩
    · rw [h0]
      exact lt_of_lt_of_le one_pos (le_max_left 1 _)
    · rw [hqq, hq]
      exact hlt
  · simp only
    rw [hq]
    exact hi
  · simp only
    rw [hq]
    exact hi

/-- C3: after any sequence of input events — each loop iteration applying
the clamp and then the up/down/character/backspace transition — the selection
index satisfies `0 ≤ i < max 1 (length of the current candidate list)`
(the lower bound holds because the index is a natural number). -/
theorem selection_index_invariant (freq : List Entry) (evs : List Event) :
    (runFrames freq evs).selected_index <
      max 1 (rank freq (runFrames freq evs).query).length := by
  unfold runFrames
  induction evs using List.reverseRecOn with
  | nil => exact lt_of_lt_of_le one_pos (le_max_left 1 _)
  | append_singleton l e _ =>
    rw [List.foldl_append, List.foldl_cons, List.foldl_nil]
    exact stepFrame_inv freq _ e

/-- C4: the key-event dispatch, from a state satisfying the clamp
invariant, matches the spec's transition table: a printable character is
appended to the query and the index resets to 0; backspace drops the last
query character (a no-op on an empty query) and resets the index to 0; up
decrements with floor 0; down increments with ceiling `len - 1`, never
advancing past the end or wrapping; resize and any other key or event leave
query and index unchanged. -/
theorem key_transition_table (st : UIState) (len : Nat) (c : Char) (w h : Nat)
    (hinv : st.selected_index < max 1 len) :
    stepOfEvent st len (.key (.char c)) = .cont ⟨st.query ++ [c], 0⟩ ∧
    stepOfEvent st len (.key .backspace) = .cont ⟨st.query.dropLast, 0⟩ ∧
    stepOfEvent st len (.key .up) = .cont ⟨st.query, st.selected_index - 1⟩ ∧
    stepOfEvent st len (.key .down) =
      .cont ⟨st.query, min (st.selected_index + 1) (len - 1)⟩ ∧
    stepOfEvent st len (.resize w h) = .cont st ∧
    stepOfEvent st len (.key .otherKey) = .cont st ∧
    stepOfEvent st len .otherEvent = .cont st := by
  obtain ⟨q, i⟩ := st
  have hinv' : i < max 1 len := hinv
  refine ⟨rfl, rfl, ?_, ?_, rfl, rfl, rfl⟩
  · simp only [stepOfEvent]
    split
    · rfl
    · rename_i hng
      have hng' : ¬ i > 0 := hng
      have hz : i = 0 := by omega
      subst hz
      rfl
  · simp only [stepOfEvent]
    split
    · rename_i hc
      have hc' : i + 1 < len := hc
      have hm : min (i + 1) (len - 1) = i + 1 := by omega
      show StepOut.cont ⟨q, i + 1⟩ = StepOut.cont ⟨q, min (i + 1) (len - 1)⟩
      rw [hm]
    · rename_i hc
      have hc' : ¬ i + 1 < len := hc
      have hm : min (i + 1) (len - 1) = i := by omega
      show StepOut.cont ⟨q, i⟩ = StepOut.cont ⟨q, min (i + 1) (len - 1)⟩
      rw [hm]

/-- Witness for `key_transition_table` at the state `⟨"a", 1⟩` with a 3-entry
candidate list. -/
theorem key_transition_table_witness :
    stepOfEvent ⟨str "a", 1⟩ 3 (.key (.char 'x')) = .cont ⟨str "a" ++ ['x'], 0⟩ ∧
    stepOfEvent ⟨str "a", 1⟩ 3 (.key .backspace) = .cont ⟨(str "a").dropLast, 0⟩ ∧
    stepOfEvent ⟨str "a", 1⟩ 3 (.key .up) = .cont ⟨str "a", 1 - 1⟩ ∧
    stepOfEvent ⟨str "a", 1⟩ 3 (.key .down) = .cont ⟨str "a", min (1 + 1) (3 - 1)⟩ ∧
    stepOfEvent ⟨str "a", 1⟩ 3 (.resize 80 24) = .cont ⟨str "a", 1⟩ ∧
    stepOfEvent ⟨str "a", 1⟩ 3 (.key .otherKey) = .cont ⟨str "a", 1⟩ ∧
    stepOfEvent ⟨str "a", 1⟩ 3 .otherEvent = .cont ⟨str "a", 1⟩ :=
  key_transition_table ⟨str "a", 1⟩ 3 'x' 80 24 (by decide)

/-! ### Claim C7: the frequency map -/

theorem bump_lookup (acc : List Entry) (cmd k : Str) :
    (bump acc cmd).lookup k =
      if k = cmd then some ((acc.lookup k).getD 0 + 1) else acc.lookup k := by
  induction acc with
  | nil =>
    by_cases h : k = cmd
    · simp [bump, List.lookup, h]
    · simp [bump, List.lookup, h, beq_false_of_ne h]
  | cons p rest ih =>
    obtain ⟨a, v⟩ := p
    by_cases hac : a = cmd
    · subst hac
      by_cases hk : k = a
      · simp [bump, List.lookup, hk]
      · simp [bump, List.lookup, hk, beq_false_of_ne hk]
    · by_cases hk : k = a
      · subst hk
        have hkc : ¬ k = cmd := hac
        simp [bump, hac, List.lookup, hkc]
      · simp [bump, hac, List.lookup, Ne.symm hk, beq_false_of_ne hk, ih]

theorem foldl_bump_lookup (cmds : List Str) : ∀ (acc : List Entry) (k : Str),
    (cmds.foldl bump acc).lookup k =
      match acc.lookup k with
      | some v => some (v + cmds.count k)
      | none => if cmds.count k = 0 then none else some (cmds.count k) := by
  induction cmds with
  | nil =>
    intro acc k
    cases h : acc.lookup k <;> simp [h]
  | cons c rest ih =>
    intro acc k
    rw [List.foldl_cons, ih (bump acc c) k, bump_lookup]
    by_cases hk : k = c
    · subst hk
      have hcnt : (k :: rest).count k = rest.count k + 1 := by
        simp [List.count_cons]
      rw [hcnt]
      cases h : acc.lookup k with
      | none => simp [h]; omega
      | some v => simp [h]; omega
    · have hcnt : (c :: rest).count k = rest.count k := by
        simp [List.count_cons, beq_false_of_ne (Ne.symm hk)]
      rw [hcnt, if_neg hk]

theorem bump_keys (acc : List Entry) (cmd : Str) :
    (bump acc cmd).map Prod.fst =
      if cmd ∈ acc.map Prod.fst then acc.map Prod.fst else acc.map Prod.fst ++ [cmd] := by
  induction acc with
  | nil => simp [bump]
  | cons p rest ih =>
    obtain ⟨a, v⟩ := p
    by_cases hac : a = cmd
    · subst hac
      simp [bump]
    · simp only [bump, if_neg hac, List.map_cons]
      rw [ih]
      by_cases hmem : cmd ∈ rest.map Prod.fst
      · simp [hmem, Ne.symm hac]
      · simp [hmem, Ne.symm hac]

theorem bump_keys_nodup {acc : List Entry} (h : (acc.map Prod.fst).Nodup)
    (cmd : Str) : ((bump acc cmd).map Prod.fst).Nodup := by
  rw [bump_keys]
  split
  · exact h
  · rename_i hmem
    simp [List.nodup_append, h, hmem]

theorem foldl_bump_keys_nodup (cmds : List Str) :
    ∀ (acc : List Entry), (acc.map Prod.fst).Nodup →
      ((cmds.foldl bump acc).map Prod.fst).Nodup := by
  induction cmds with
  | nil => intro acc h; exact h
  | cons c rest ih =>
    intro acc h
    rw [List.foldl_cons]
    exact ih (bump acc c) (bump_keys_nodup h c)

theorem bump_mem {acc : List Entry} {cmd : Str} :
    ∀ p ∈ bump acc cmd, (p ∈ acc ∧ 0 < p.2 → p ∈ acc) ∧ (p ∈ acc ∨ p.1 = cmd) := by
  intro p hp
  refine ⟨fun h => h.1, ?_⟩
  induction acc with
  | nil =>
    simp [bump] at hp
    subst hp
    exact Or.inr rfl
  | cons q rest ih =>
    obtain ⟨a, v⟩ := q
    by_cases hac : a = cmd
    · subst hac
      simp only [bump, if_pos rfl] at hp
      rcases List.mem_cons.1 hp with h | h
      · subst h; exact Or.inr rfl
      · exact Or.inl (List.mem_cons_of_mem _ h)
    · simp only [bump, if_neg hac] at hp
      rcases List.mem_cons.1 hp with h | h
      · subst h; exact Or.inl (List.mem_cons_self _ _)
      · rcases ih h with h' | h'
        · exact Or.inl (List.mem_cons_of_mem _ h')
        · exact Or.inr h'

theorem bump_pos {acc : List Entry} {cmd : Str} (hacc : ∀ p ∈ acc, 0 < p.2) :
    ∀ p ∈ bump acc cmd, 0 < p.2 := by
  induction acc with
  | nil =>
    intro p hp
    simp [bump] at hp
    subst hp
    exact Nat.one_pos
  | cons q rest ih =>
    obtain ⟨a, v⟩ := q
    intro p hp
    by_cases hac : a = cmd
    · subst hac
      simp only [bump, if_pos rfl] at hp
      rcases List.mem_cons.1 hp with h | h
      · subst h; exact Nat.succ_pos v
      · exact hacc p (List.mem_cons_of_mem _ h)
    · simp only [bump, if_neg hac] at hp
      rcases List.mem_cons.1 hp with h | h
      · subst h; exact hacc _ (List.mem_cons_self _ _)
      · exact ih (fun r hr => hacc r (List.mem_cons_of_mem _ hr)) p h

theorem foldl_bump_mem (cmds : List Str) :
    ∀ (acc : List Entry), (∀ p ∈ acc, p.1 ∈ cmds ∨ p ∈ acc) →
      ∀ p ∈ cmds.foldl bump acc, p ∈ acc ∨ p.1 ∈ cmds := by
  induction cmds with
  | nil => intro acc _ p hp; exact Or.inl hp
  | cons c rest ih =>
    intro acc _ p hp
    rw [List.foldl_cons] at hp
    rcases ih (bump acc c) (fun r _ => Or.inr (by assumption)) p hp with h | h
    · rcases (bump_mem p h).2 with h' | h'
      · exact Or.inl h'
      · exact Or.inr (h' ▸ List.mem_cons_self _ _)
    · exact Or.inr (List.mem_cons_of_mem _ h)

theorem foldl_bump_pos (cmds : List Str) :
    ∀ (acc : List Entry), (∀ p ∈ acc, 0 < p.2) →
      ∀ p ∈ cmds.foldl bump acc, 0 < p.2 := by
  induction cmds with
  | nil => intro acc h p hp; exact h p hp
  | cons c rest ih =>
    intro acc h p hp
    rw [List.foldl_cons] at hp
    exact ih (bump acc c) (bump_pos h) p hp

/-- C7: `build_frequency_map` returns a mapping (an association list with
pairwise-distinct keys) whose keys are exactly the distinct commands of the
input, whose value at each present command is that command's occurrence count,
and all of whose counts are positive. -/
theorem build_frequency_map_spec (cmds : List Str) :
    ((build_frequency_map cmds).map Prod.fst).Nodup ∧
    (∀ cmd, cmd ∈ cmds →
      (build_frequency_map cmds).lookup cmd = some (cmds.count cmd)) ∧
    (∀ cmd, cmd ∉ cmds → (build_frequency_map cmds).lookup cmd = none) ∧
    (∀ p ∈ build_frequency_map cmds, p.1 ∈ cmds ∧ 0 < p.2) := by
  refine ⟨?_, ?_, ?_, ?_⟩
  · exact foldl_bump_keys_nodup cmds [] (by simp)
  · intro cmd hmem
    have h := foldl_bump_lookup cmds [] cmd
    have hcnt : cmds.count cmd ≠ 0 := by
      simpa [Nat.pos_iff_ne_zero] using List.count_pos_iff.2 hmem
    simpa [List.lookup, hcnt] using h
  · intro cmd hmem
    have h := foldl_bump_lookup cmds [] cmd
    have hcnt : cmds.count cmd = 0 := List.count_eq_zero.2 hmem
    simpa [List.lookup, hcnt] using h
  · intro p hp
    constructor
    · rcases foldl_bump_mem cmds [] (by simp) p hp with h | h
      · simp at h
      · exact h
    · exact foldl_bump_pos cmds [] (by simp) p hp

/-! ### Claims C1 and C6: the search engine -/

theorem isPrefixB_iff : ∀ {p l : Str}, isPrefixB p l = true ↔ p <+: l
  | [], l => by simp [isPrefixB, List.nil_prefix]
  | a :: as, [] => by simp [isPrefixB]
  | a :: as, b :: bs => by
    simp [isPrefixB, List.cons_prefix_cons, isPrefixB_iff]

theorem isInfixB_iff {q : Str} : ∀ (l : Str), isInfixB q l = true ↔ q <:+: l
  | [] => by simp [isInfixB, List.infix_nil, List.isEmpty_iff]
  | b :: bs => by
    rw [isInfixB, List.infix_cons_iff]
    simp [isPrefixB_iff, isInfixB_iff bs]

theorem matchesQuery_iff (q cmd : Str) :
    matchesQuery q cmd = true ↔ lower q <:+: lower cmd :=
  isInfixB_iff (lower cmd)

theorem matchesQuery_nil (cmd : Str) : matchesQuery [] cmd = true :=
  (matchesQuery_iff [] cmd).2 List.nil_infix

theorem rank_eq_take (index : List Entry) (q : Str) :
    rank index q =
      (List.insertionSort entryLE (index.filter fun e => matchesQuery q e.1)).take 10 := by
  show (if (List.insertionSort entryLE
        (index.filter fun e => matchesQuery q e.1)).length > 10
      then (List.insertionSort entryLE
        (index.filter fun e => matchesQuery q e.1)).take 10
      else List.insertionSort entryLE (index.filter fun e => matchesQuery q e.1)) =
    (List.insertionSort entryLE (index.filter fun e => matchesQuery q e.1)).take 10
  split
  · rfl
  · rename_i h
    rw [List.take_of_length_le (by omega)]

/-- C1: for every index and query, the candidate list contains exactly
the index entries whose lowercased command has the lowercased query as a
substring (every entry when the query is empty), sorted strictly by
descending count with ties broken by ascending command text, and truncated
after sorting to at most 10 entries; a qualifying entry is left out only
when the list already holds 10 entries that all rank strictly before it. -/
theorem rank_spec (index : List Entry) (q : Str)
    (hN : (index.map Prod.fst).Nodup) :
    (rank index q).length ≤ 10 ∧
    (∀ p ∈ rank index q, p ∈ index ∧ matchesQuery q p.1 = true) ∧
    (∀ p ∈ index, matchesQuery q p.1 = true →
      p ∈ rank index q ∨
        ((rank index q).length = 10 ∧ ∀ r ∈ rank index q, rankLT r p = true)) ∧
    List.Pairwise (fun a b => rankLT a b = true) (rank index q) ∧
    (∀ cmd, matchesQuery q cmd = true ↔ lower q <:+: lower cmd) ∧
    (∀ cmd, matchesQuery [] cmd = true) := by
  have hperm := List.perm_insertionSort entryLE (index.filter fun e => matchesQuery q e.1)
  have hsort := List.sorted_insertionSort entryLE (index.filter fun e => matchesQuery q e.1)
  have hnodup : (List.insertionSort entryLE
      (index.filter fun e => matchesQuery q e.1)).Nodup :=
    hperm.symm.nodup (List.Nodup.filter _ (List.Nodup.of_map Prod.fst hN))
  rw [rank_eq_take]
  set sorted := List.insertionSort entryLE (index.filter fun e => matchesQuery q e.1)
    with hsorted
  refine ⟨?_, ?_, ?_, ?_, fun cmd => matchesQuery_iff q cmd, matchesQuery_nil⟩
  · rw [List.length_take]
    exact min_le_left 10 _
  · intro p hp
    have hmem : p ∈ sorted := List.take_subset 10 sorted hp
    have := hperm.mem_iff.1 hmem
    exact List.mem_filter.1 this
  · intro p hpI hpq
    have hmem : p ∈ sorted := hperm.mem_iff.2 (List.mem_filter.2 ⟨hpI, hpq⟩)
    by_cases hshort : sorted.length ≤ 10
    · left
      rw [List.take_of_length_le hshort]
      exact hmem
    · by_cases hin : p ∈ sorted.take 10
      · exact Or.inl hin
      · right
        constructor
        · rw [List.length_take]
          omega
        · intro r hr
          have hdrop : p ∈ sorted.drop 10 := by
            have := (List.take_append_drop 10 sorted) ▸ hmem
            rcases List.mem_append.1 this with h | h
            · exact absurd h hin
            · exact h
          have hpw : List.Pairwise entryLE (sorted.take 10 ++ sorted.drop 10) := by
            rw [List.take_append_drop]
            exact hsort
          have hle : entryLE r p :=
            (List.pairwise_append.1 hpw).2.2 r hr p hdrop
          have hnd : (sorted.take 10 ++ sorted.drop 10).Nodup := by
            rw [List.take_append_drop]
            exact hnodup
          have hne : r ≠ p := by
            intro hEq
            exact (List.nodup_append.1 hnd).2.2 (hEq ▸ hr) hdrop
          exact rankLT_of_entryLE_ne hle hne
  · have hpwLE : List.Pairwise entryLE (sorted.take 10) :=
      List.Pairwise.sublist (List.take_sublist 10 sorted) hsort
    have hpwNe : List.Pairwise (fun a b : Entry => a ≠ b) (sorted.take 10) :=
      List.Nodup.sublist (List.take_sublist 10 sorted) hnodup
    exact (hpwLE.and hpwNe).imp fun h => rankLT_of_entryLE_ne h.1 h.2

/-- Witness for `rank_spec` on the spec's example index
`{"git status": 5, "git commit": 3, "ls": 5}` with query `"git"`. -/
theorem rank_spec_witness :
    (rank [(str "git status", 5), (str "git commit", 3), (str "ls", 5)]
        (str "git")).length ≤ 10 ∧
    (∀ p ∈ rank [(str "git status", 5), (str "git commit", 3), (str "ls", 5)]
        (str "git"),
      p ∈ [(str "git status", 5), (str "git commit", 3), (str "ls", 5)] ∧
        matchesQuery (str "git") p.1 = true) ∧
    (∀ p ∈ [(str "git status", 5), (str "git commit", 3), (str "ls", 5)],
      matchesQuery (str "git") p.1 = true →
        p ∈ rank [(str "git status", 5), (str "git commit", 3), (str "ls", 5)]
            (str "git") ∨
          ((rank [(str "git status", 5), (str "git commit", 3), (str "ls", 5)]
              (str "git")).length = 10 ∧
            ∀ r ∈ rank [(str "git status", 5), (str "git commit", 3), (str "ls", 5)]
                (str "git"), rankLT r p = true)) ∧
    List.Pairwise (fun a b => rankLT a b = true)
      (rank [(str "git status", 5), (str "git commit", 3), (str "ls", 5)]
        (str "git")) ∧
    (∀ cmd, matchesQuery (str "git") cmd = true ↔
      lower (str "git") <:+: lower cmd) ∧
    (∀ cmd, matchesQuery [] cmd = true) :=
  rank_spec [(str "git status", 5), (str "git commit", 3), (str "ls", 5)]
    (str "git") (by decide)

/-- C6: `rank` is a pure function of the set of index entries: it yields
identical output on any two enumeration orders of the same frequency index,
because the sort key is a total, transitive and antisymmetric order on
entries (so the sorted permutation is unique). -/
theorem rank_deterministic (I I' : List Entry) (q : Str) (hp : I.Perm I') :
    rank I q = rank I' q := by
  have hf : (I.filter fun e => matchesQuery q e.1).Perm
      (I'.filter fun e => matchesQuery q e.1) := hp.filter _
  have h1 := List.perm_insertionSort entryLE (I.filter fun e => matchesQuery q e.1)
  have h2 := List.perm_insertionSort entryLE (I'.filter fun e => matchesQuery q e.1)
  have heq : List.insertionSort entryLE (I.filter fun e => matchesQuery q e.1) =
      List.insertionSort entryLE (I'.filter fun e => matchesQuery q e.1) :=
    List.eq_of_perm_of_sorted (h1.trans (hf.trans h2.symm))
      (List.sorted_insertionSort entryLE _) (List.sorted_insertionSort entryLE _)
  rw [rank_eq_take, rank_eq_take, heq]

/-- Witness for `rank_deterministic`: two enumeration orders of the same
three-entry index. -/
theorem rank_deterministic_witness :
    rank [(str "git status", 5), (str "git commit", 3), (str "ls", 5)] (str "git") =
      rank [(str "ls", 5), (str "git commit", 3), (str "git status", 5)] (str "git") :=
  rank_deterministic
    [(str "git status", 5), (str "git commit", 3), (str "ls", 5)]
    [(str "ls", 5), (str "git commit", 3), (str "git status", 5)]
    (str "git") (by decide)

/-! ### Claims C2, C5, C8, C10: the loop, the terminal session, and `main` -/

theorem uiLoop_cons_renderFail (freq : List Entry) (st : UIState)
    (rEv : Option Event) (rest : List Frame) :
    uiLoop freq st (⟨false, rEv⟩ :: rest) = .finished .ioError [] := rfl

theorem uiLoop_cons_readFail (freq : List Entry) (st : UIState)
    (rest : List Frame) :
    uiLoop freq st (⟨true, none⟩ :: rest) = .finished .ioError [.render] := rfl

theorem uiLoop_cons_event (freq : List Entry) (st : UIState) (ev : Event)
    (rest : List Frame) :
    uiLoop freq st (⟨true, some ev⟩ :: rest) =
      match stepOfEvent (clampIndex st (rank freq st.query).length)
          (rank freq st.query).length ev with
      | .cont st'' => (uiLoop freq st'' rest).prepend [.render]
      | .exitEnter => .finished (enterResult freq st) [.render, .restore]
      | .exitEsc => .finished (.ok .cancelled) [.render, .restore] := rfl

theorem uiLoop_cons_cont {freq : List Entry} {st : UIState} {ev : Event}
    (rest : List Frame) {st'' : UIState}
    (hse : stepOfEvent (clampIndex st (rank freq st.query).length)
      (rank freq st.query).length ev = .cont st'') :
    uiLoop freq st (⟨true, some ev⟩ :: rest) =
      (uiLoop freq st'' rest).prepend [.render] := by
  have h := uiLoop_cons_event freq st ev rest
  rw [hse] at h
  exact h

theorem uiLoop_cons_enter {freq : List Entry} {st : UIState} {ev : Event}
    (rest : List Frame)
    (hse : stepOfEvent (clampIndex st (rank freq st.query).length)
      (rank freq st.query).length ev = .exitEnter) :
    uiLoop freq st (⟨true, some ev⟩ :: rest) =
      .finished (enterResult freq st) [.render, .restore] := by
  have h := uiLoop_cons_event freq st ev rest
  rw [hse] at h
  exact h

theorem uiLoop_cons_esc {freq : List Entry} {st : UIState} {ev : Event}
    (rest : List Frame)
    (hse : stepOfEvent (clampIndex st (rank freq st.query).length)
      (rank freq st.query).length ev = .exitEsc) :
    uiLoop freq st (⟨true, some ev⟩ :: rest) =
      .finished (.ok .cancelled) [.render, .restore] := by
  have h := uiLoop_cons_event freq st ev rest
  rw [hse] at h
  exact h

theorem enterResult_ne_ioError (freq : List Entry) (st : UIState) :
    enterResult freq st ≠ .ioError := by
  unfold enterResult
  split
  · simp
  · rcases h : (rank freq st.query)[(clampIndex st
        (rank freq st.query).length).selected_index]? with _ | e
    · simp
    · simp

theorem enterResult_no_panic (freq : List Entry) (st : UIState) :
    enterResult freq st ≠ .indexPanic := by
  unfold enterResult
  by_cases hemp : (rank freq st.query).isEmpty
  · rw [if_pos hemp]
    simp
  · rw [if_neg hemp]
    have hlen : 0 < (rank freq st.query).length := by
      rw [List.length_pos]
      intro hnil
      exact hemp (List.isEmpty_iff.2 hnil)
    rw [List.getElem?_eq_getElem (clampIndex_lt_len st hlen)]
    simp

theorem uiLoop_trace (freq : List Entry) : ∀ (frames : List Frame) (st : UIState),
    (∀ r tr, uiLoop freq st frames = .finished r tr →
      tr.count .setup = 0 ∧ r ≠ .indexPanic ∧
      ((r = .ioError ∧ tr.count .restore = 0) ∨
       (r ≠ .ioError ∧ tr.count .restore = 1 ∧ tr.getLast? = some .restore))) ∧
    (∀ tr, uiLoop freq st frames = .ranOut tr →
      tr.count .setup = 0 ∧ tr.count .restore = 0) := by
  intro frames
  induction frames with
  | nil =>
    intro st
    constructor
    · intro r tr h
      exact RunResult.noConfusion h
    · intro tr h
      injection h with h'
      subst h'
      exact ⟨rfl, rfl⟩
  | cons f rest ih =>
    intro st
    obtain ⟨rOk, rEv⟩ := f
    cases rOk
    case false =>
      rw [uiLoop_cons_renderFail]
      constructor
      · intro r tr h
        injection h with h1 h2
        subst h1
        subst h2
        exact ⟨rfl, by simp, Or.inl ⟨rfl, rfl⟩⟩
      · intro tr h
        exact RunResult.noConfusion h
    case true =>
      cases rEv with
      | none =>
        rw [uiLoop_cons_readFail]
        constructor
        · intro r tr h
          injection h with h1 h2
          subst h1
          subst h2
          exact ⟨by decide, by simp, Or.inl ⟨rfl, by decide⟩⟩
        · intro tr h
          exact RunResult.noConfusion h
      | some ev =>
        rcases hse : stepOfEvent (clampIndex st (rank freq st.query).length)
            (rank freq st.query).length ev with st'' | _ | _
        · rw [uiLoop_cons_cont rest hse]
          constructor
          · intro r tr h
            rcases hrec : uiLoop freq st'' rest with ⟨r', tr'⟩ | tr'
            · rw [hrec] at h
              simp only [RunResult.prepend, List.singleton_append] at h
              injection h with h1 h2
              subst h1
              subst h2
              obtain ⟨hs0, hnp, hdisj⟩ := (ih st'').1 r' tr' hrec
              refine ⟨by simp [List.count_cons, hs0], hnp, ?_⟩
              rcases hdisj with ⟨hio, hre⟩ | ⟨hio, hre, hlast⟩
              · exact Or.inl ⟨hio, by simp [List.count_cons, hre]⟩
              · refine Or.inr ⟨hio, by simp [List.count_cons, hre], ?_⟩
                cases tr' with
                | nil => simp at hre
                | cons b t =>
                  rw [List.getLast?_cons_cons]
                  exact hlast
            · rw [hrec] at h
              simp only [RunResult.prepend] at h
              exact RunResult.noConfusion h
          · intro tr h
            rcases hrec : uiLoop freq st'' rest with ⟨r', tr'⟩ | tr'
            · rw [hrec] at h
              simp only [RunResult.prepend] at h
              exact RunResult.noConfusion h
            · rw [hrec] at h
              simp only [RunResult.prepend, List.singleton_append] at h
              injection h with h2
              subst h2
              obtain ⟨h1, h2'⟩ := (ih st'').2 tr' hrec
              exact ⟨by simp [List.count_cons, h1], by simp [List.count_cons, h2']⟩
        · rw [uiLoop_cons_enter rest hse]
          constructor
          · intro r tr h
            injection h with h1 h2
            subst h1
            subst h2
            exact ⟨by decide, enterResult_no_panic freq st,
              Or.inr ⟨enterResult_ne_ioError freq st, by decide, by decide⟩⟩
          · intro tr h
            exact RunResult.noConfusion h
        · rw [uiLoop_cons_esc rest hse]
          constructor
          · intro r tr h
            injection h with h1 h2
            subst h1
            subst h2
            exact ⟨by decide, by simp, Or.inr ⟨by simp, by decide, by decide⟩⟩
          · intro tr h
            exact RunResult.noConfusion h

theorem main_eq (e : Env) (frames : List Frame) :
    main e frames =
      match run_ui e frames with
      | .finished .ioError tr => .finished .ioError (tr ++ [.restore])
      | r => r := rfl

theorem run_ui_panicked {e : Env} {msg : Str} (frames : List Frame)
    (h : load_history e = .panicked msg) :
    run_ui e frames = .finished (.configPanic msg) [] := by
  unfold run_ui
  rw [h]

theorem run_ui_ok {e : Env} {cmds : List Str} (frames : List Frame)
    (h : load_history e = .ok cmds) :
    run_ui e frames =
      RunResult.prepend [.setup]
        (uiLoop (build_frequency_map cmds) ⟨[], 0⟩ frames) := by
  unfold run_ui
  rw [h]

/-- C5: with this frame's (recomputed and clamped) state, `Enter`
terminates the loop with trace `render, restore` (terminal restored before
the report) and a successful result: the command text at the selection index
when the candidate list is non-empty, the no-match outcome when it is empty;
`Esc` terminates with the same trace and the successful cancelled outcome. -/
theorem enter_confirm_esc_cancel (freq : List Entry) (st : UIState)
    (rest : List Frame) :
    uiLoop freq st (⟨true, some (.key .enter)⟩ :: rest) =
      .finished
        (if (rank freq st.query).isEmpty then .ok .noMatch
         else .ok (.selected ((rank freq st.query).getD
           (clampIndex st (rank freq st.query).length).selected_index
           ([], 0)).1))
        [.render, .restore] ∧
    uiLoop freq st (⟨true, some (.key .esc)⟩ :: rest) =
      .finished (.ok .cancelled) [.render, .restore] := by
  constructor
  · rw [@uiLoop_cons_enter freq st (Event.key KeyCode.enter) rest rfl]
    congr 1
    unfold enterResult
    by_cases hemp : (rank freq st.query).isEmpty
    · rw [if_pos hemp, if_pos hemp]
    · rw [if_neg hemp, if_neg hemp]
      have hlen : 0 < (rank freq st.query).length := by
        rw [List.length_pos]
        intro hnil
        exact hemp (List.isEmpty_iff.2 hnil)
      rw [List.getElem?_eq_getElem (clampIndex_lt_len st hlen),
        List.getD_eq_getElem _ _ (clampIndex_lt_len st hlen)]
  · exact @uiLoop_cons_esc freq st (Event.key KeyCode.esc) rest rfl

/-- C2: on every finished run that mutated the terminal (the trace shows
the setup), the terminal is set up exactly once and restored exactly once —
whether the run ended by confirmation, cancellation, or an I/O error from
drawing or event reading — and the trace begins with the setup and ends with
the restoration, so the process never exits in raw mode or on the alternate
screen. -/
theorem terminal_restore_once (e : Env) (frames : List Frame) (r : UIResult)
    (tr : List TermAction) (hrun : main e frames = .finished r tr)
    (hsetup : TermAction.setup ∈ tr) :
    tr.count .setup = 1 ∧ tr.count .restore = 1 ∧
    tr.head? = some .setup ∧ tr.getLast? = some .restore := by
  rw [main_eq] at hrun
  rcases hload : load_history e with cmds | msg
  · rw [run_ui_ok frames hload] at hrun
    rcases hui : uiLoop (build_frequency_map cmds) ⟨[], 0⟩ frames
        with ⟨r', tr'⟩ | tr'
    · rw [hui] at hrun
      simp only [RunResult.prepend, List.singleton_append] at hrun
      obtain ⟨hs0, hnp, hdisj⟩ := (uiLoop_trace _ frames ⟨[], 0⟩).1 r' tr' hui
      rcases hdisj with ⟨hio, hre⟩ | ⟨hio, hre, hlast⟩
      · subst hio
        have hrun' : RunResult.finished .ioError
            ((.setup :: tr') ++ [.restore]) = .finished r tr := hrun
        injection hrun' with h1 h2
        subst h1
        subst h2
        refine ⟨?_, ?_, rfl, ?_⟩
        · simp [List.count_append, List.count_cons, hs0]
        · simp [List.count_append, List.count_cons, hre]
        · rw [List.getLast?_concat]
      · have hne : tr' ≠ [] := by
          intro hnil
          rw [hnil] at hre
          simp at hre
        rcases r' with o | _ | msg' | _
        · have hrun' : RunResult.finished (.ok o) (.setup :: tr') =
              .finished r tr := hrun
          injection hrun' with h1 h2
          subst h1
          subst h2
          refine ⟨by simp [List.count_cons, hs0],
            by simp [List.count_cons, hre], rfl, ?_⟩
          cases tr' with
          | nil => exact absurd rfl hne
          | cons b t =>
            rw [List.getLast?_cons_cons]
            exact hlast
        · exact absurd rfl hio
        · have hrun' : RunResult.finished (.configPanic msg') (.setup :: tr') =
              .finished r tr := hrun
          injection hrun' with h1 h2
          subst h1
          subst h2
          refine ⟨by simp [List.count_cons, hs0],
            by simp [List.count_cons, hre], rfl, ?_⟩
          cases tr' with
          | nil => exact absurd rfl hne
          | cons b t =>
            rw [List.getLast?_cons_cons]
            exact hlast
        · exact absurd rfl hnp
    · rw [hui] at hrun
      have hrun' : RunResult.ranOut ([TermAction.setup] ++ tr') =
          .finished r tr := hrun
      exact RunResult.noConfusion hrun'
  · rw [run_ui_panicked frames hload] at hrun
    have hrun' : RunResult.finished (.configPanic msg) [] =
        .finished r tr := hrun
    injection hrun' with h1 h2
    subst h1
    subst h2
    exact absurd hsetup (List.not_mem_nil _)

/-- Witness for `terminal_restore_once`: a run over `bash` history `["ls"]`
in which the user immediately presses escape. -/
theorem terminal_restore_once_witness :
    List.count TermAction.setup
        [TermAction.setup, TermAction.render, TermAction.restore] = 1 ∧
    List.count TermAction.restore
        [TermAction.setup, TermAction.render, TermAction.restore] = 1 ∧
    [TermAction.setup, TermAction.render, TermAction.restore].head? =
      some TermAction.setup ∧
    [TermAction.setup, TermAction.render, TermAction.restore].getLast? =
      some TermAction.restore :=
  terminal_restore_once
    ⟨some (str "/h"), some (str "/bin/bash"), fun _ => some [str "ls"]⟩
    [⟨true, some (.key .esc)⟩] (.ok .cancelled)
    [.setup, .render, .restore] (by decide) (by decide)

/-- C10: no finished run of the program ever ends in the out-of-bounds
panic of `suggestions[selected_index]`: the per-iteration clamp keeps the
selection index strictly below the candidate-list length whenever the list
is non-empty, so the indexing in the `Enter` arm is always in bounds. -/
theorem index_access_safe (e : Env) (frames : List Frame) (r : UIResult)
    (tr : List TermAction) (hrun : main e frames = .finished r tr) :
    r ≠ .indexPanic := by
  rw [main_eq] at hrun
  rcases hload : load_history e with cmds | msg
  · rw [run_ui_ok frames hload] at hrun
    rcases hui : uiLoop (build_frequency_map cmds) ⟨[], 0⟩ frames
        with ⟨r', tr'⟩ | tr'
    · rw [hui] at hrun
      simp only [RunResult.prepend, List.singleton_append] at hrun
      obtain ⟨-, hnp, -⟩ := (uiLoop_trace _ frames ⟨[], 0⟩).1 r' tr' hui
      rcases r' with o | _ | msg' | _
      · have hrun' : RunResult.finished (.ok o) (.setup :: tr') =
            .finished r tr := hrun
        injection hrun' with h1 h2
        subst h1
        simp
      · have hrun' : RunResult.finished .ioError
            ((.setup :: tr') ++ [.restore]) = .finished r tr := hrun
        injection hrun' with h1 h2
        subst h1
        simp
      · have hrun' : RunResult.finished (.configPanic msg') (.setup :: tr') =
            .finished r tr := hrun
        injection hrun' with h1 h2
        subst h1
        simp
      · exact absurd rfl hnp
    · rw [hui] at hrun
      have hrun' : RunResult.ranOut ([TermAction.setup] ++ tr') =
          .finished r tr := hrun
      exact RunResult.noConfusion hrun'
  · rw [run_ui_panicked frames hload] at hrun
    have hrun' : RunResult.finished (.configPanic msg) [] =
        .finished r tr := hrun
    injection hrun' with h1 h2
    subst h1
    simp

/-- Witness for `index_access_safe`: a run over `bash` history `["ls"]` in
which the user immediately presses enter and receives the top suggestion. -/
theorem index_access_safe_witness :
    UIResult.ok (.selected (str "ls")) ≠ UIResult.indexPanic :=
  index_access_safe
    ⟨some (str "/h"), some (str "/bin/bash"), fun _ => some [str "ls"]⟩
    [⟨true, some (.key .enter)⟩] (.ok (.selected (str "ls")))
    [.setup, .render, .restore] (by decide)

/-- C8: under any of the fatal configuration conditions — `HOME` unset,
`SHELL` unset, an unsupported shell value, or an unreadable history file —
the process panics inside `load_history` with a non-empty descriptive
message, and the whole run is that abnormal termination with an empty
terminal-action trace: no terminal mutation ever happens and the UI loop is
never entered. -/
theorem fatal_config_before_ui (e : Env) (frames : List Frame)
    (h : e.home = none ∨
      (∃ hm, e.home = some hm ∧ e.shell = none) ∨
      (∃ hm sh, e.home = some hm ∧ e.shell = some sh ∧
        history_path_for hm sh = none) ∨
      (∃ hm sh p, e.home = some hm ∧ e.shell = some sh ∧
        history_path_for hm sh = some p ∧ e.fileLines p = none)) :
    (load_history e).isPanicked = true ∧
    (load_history e).msgStr ≠ [] ∧
    main e frames = .finished (.configPanic (load_history e).msgStr) [] := by
  have hmain : ∀ msg, load_history e = .panicked msg →
      main e frames = .finished (.configPanic msg) [] := by
    intro msg hl
    rw [main_eq, run_ui_panicked frames hl]
  have hout : ∀ msg, msg ≠ [] → load_history e = .panicked msg →
      (load_history e).isPanicked = true ∧
      (load_history e).msgStr ≠ [] ∧
      main e frames = .finished (.configPanic (load_history e).msgStr) [] := by
    intro msg hne hl
    rw [hl]
    exact ⟨rfl, hne, hmain msg hl⟩
  rcases h with h1 | ⟨hm, h1, h2⟩ | ⟨hm, sh, h1, h2, h3⟩ | ⟨hm, sh, p, h1, h2, h3, h4⟩
  · refine hout (str "Could not determine HOME directory") (by decide) ?_
    unfold load_history
    rw [h1]
  · refine hout (str "Could not determine SHELL") (by decide) ?_
    unfold load_history
    rw [h1, h2]
  · refine hout (str "Unsupported shell: " ++ sh) ?_ ?_
    · intro hc
      exact absurd (List.append_eq_nil.1 hc).1 (by decide)
    · simp only [load_history, h1, h2, h3]
  · refine hout (str "Failed to open history file at " ++ p) ?_ ?_
    · intro hc
      exact absurd (List.append_eq_nil.1 hc).1 (by decide)
    · simp only [load_history, h1, h2, h3, h4]

/-- Witness for `fatal_config_before_ui`: an environment with `HOME` unset. -/
theorem fatal_config_before_ui_witness :
    (load_history ⟨none, none, fun _ => none⟩).isPanicked = true ∧
    (load_history ⟨none, none, fun _ => none⟩).msgStr ≠ [] ∧
    main ⟨none, none, fun _ => none⟩ [] =
      .finished (.configPanic
        (load_history ⟨none, none, fun _ => none⟩).msgStr) [] :=
  fatal_config_before_ui ⟨none, none, fun _ => none⟩ [] (Or.inl rfl)
